import Mathlib

/-!
Shallow embedding of `ConcurrentAppendOnlyVec` (two Rust files:
`src/fix_sized.rs` and `src/linked_list.rs`) and proofs about it.

The claims under verification are about states reachable by sequences of
operations, so the embedding gives the sequential semantics of each public
operation: every atomic read-modify-write (the CAS retry loops) is run by a
single thread and therefore succeeds on its first attempt.  Undefined
behaviour of the Rust code (out-of-bounds `get_unchecked`, dereferencing a
null or dangling pointer) and `assert!` failures are made explicit in the
result types instead of being smoothed over, so that we can prove they never
occur in reachable states.
-/

/-! ## Fixed-capacity variant: `FixSizedVec<T, N>` (src/fix_sized.rs)

A slot of the Rust array is `(MaybeUninit<T>, AtomicBool)`; we model the
possibly-uninitialised cell as `Option T` (`none` = uninitialised memory) and
the published flag as `Bool`.  The atomic `len` field is a `Nat`.
-/

/-- State of a `FixSizedVec<T, N>`: the slot array (always of length `N` in
reachable states) and the `len` reservation counter. -/
structure FixSizedVec (T : Type) (N : Nat) where
  array : List (Option T × Bool)
  len : Nat
deriving DecidableEq

/-- `FixSizedVec::new()`: all slots uninitialised and unpublished, `len = 0`. -/
def FixSizedVec.new (T : Type) (N : Nat) : FixSizedVec T N :=
  { array := List.replicate N (none, false), len := 0 }

/-- Result tag of one sequential run of `FixSizedVec::push`.
`ok` is `Ok(())`, `full` is `Err(())`, `undef` marks the undefined behaviour
of `get_unchecked_mut(snapshot)` with `snapshot` out of bounds, and
`assertFail` marks the `assert!(!inited.load(..))` firing. -/
inductive FPushR where
  | ok
  | full
  | undef
  | assertFail
deriving DecidableEq

/-- `FixSizedVec::push(val)`, sequential semantics, returning the result tag
together with the post state.  The loop body: load `len` as `snapshot`;
if `snapshot == N` return `Err`; the CAS from `snapshot` to `snapshot + 1`
succeeds (no contention); then the winner indexes slot `snapshot`, asserts its
flag is still false, writes the value and publishes the slot. -/
def FixSizedVec.push (v : FixSizedVec T N) (val : T) :
    FPushR × FixSizedVec T N :=
  if v.len = N then
    (FPushR.full, v)
  else
    let v1 : FixSizedVec T N := { v with len := v.len + 1 }
    match v.array[v.len]? with
    | none => (FPushR.undef, v1)
    | some slot =>
      if slot.2 then
        (FPushR.assertFail, v1)
      else
        (FPushR.ok, { v1 with array := v1.array.set v.len (some val, true) })

/-- `FixSizedVec::get(idx)`: `None` when `idx >= N`; otherwise read slot
`idx`; if its published flag is set, `assume_init_ref` the cell (in the model,
return the cell's contents), else `None`. -/
def FixSizedVec.get (v : FixSizedVec T N) (idx : Nat) : Option T :=
  if idx ≥ N then
    none
  else
    match v.array[idx]? with
    | none => none
    | some slot => if slot.2 then slot.1 else none

/-- `FixSizedVec::len()` just loads the counter, i.e. returns the `len`
field of the state. -/
def FixSizedVec.length (v : FixSizedVec T N) : Nat :=
  v.len

/-- State after running `push` (keeping the post state whatever the tag). -/
def FixSizedVec.pushS (v : FixSizedVec T N) (val : T) : FixSizedVec T N :=
  (v.push val).2

/-- State after pushing a whole list of values, one `push` call each. -/
def FixSizedVec.pushAll (v : FixSizedVec T N) (xs : List T) : FixSizedVec T N :=
  xs.foldl (fun v x => v.pushS x) v

/-- States of `FixSizedVec` reachable from `new` through the public
operations.  `get` and `len` do not write, and a `push` call always leaves
the structure in `(push _ _).2`, so one step per `push` call suffices. -/
inductive FixSizedVec.Reach (T : Type) (N : Nat) : FixSizedVec T N → Prop where
  | base : Reach T N (FixSizedVec.new T N)
  | step (v : FixSizedVec T N) (x : T) :
      Reach T N v → Reach T N (v.push x).2

/-- Abstraction relation for the fixed-capacity vector: the state `v` holds
exactly the elements of `xs` (the successful pushes so far, in order).  Slot
`i` is `(some xs[i], true)` for `i < |xs|` and `(none, false)` for
`|xs| ≤ i < N`. -/
def FInv (v : FixSizedVec T N) (xs : List T) : Prop :=
  v.array.length = N ∧ xs.length ≤ N ∧ v.len = xs.length ∧
    ∀ i, i < N → v.array[i]? = some (xs[i]?, decide (i < xs.length))

theorem finv_new (T : Type) (N : Nat) : FInv (FixSizedVec.new T N) [] := by
  refine ⟨List.length_replicate _ _, Nat.zero_le _, rfl, ?_⟩
  intro i hi
  simp [FixSizedVec.new, List.getElem?_replicate, hi]

theorem push_eq_ok {v : FixSizedVec T N} (hne : v.len ≠ N) {p : Option T}
    (hl : v.array[v.len]? = some (p, false)) (x : T) :
    v.push x = (FPushR.ok,
      { array := v.array.set v.len (some x, true), len := v.len + 1 }) := by
  rw [FixSizedVec.push]
  simp [hne, hl]

theorem finv_push_lt {v : FixSizedVec T N} {xs : List T}
    (h : FInv v xs) (hx : xs.length < N) (x : T) :
    (v.push x).1 = FPushR.ok ∧ FInv (v.push x).2 (xs ++ [x]) := by
  obtain ⟨hlen, hle, hvlen, hslot⟩ := h
  have hne : v.len ≠ N := by omega
  have hl : v.array[v.len]? = some (none, false) := by
    rw [hvlen, hslot xs.length hx]
    simp
  rw [push_eq_ok hne hl x]
  refine ⟨rfl, ?_, ?_, ?_, ?_⟩
  · simpa using hlen
  · simpa using hx
  · simp [hvlen]
  · intro i hi
    by_cases hieq : i = xs.length
    · subst hieq
      simp only [hvlen]
      rw [List.getElem?_set_eq_of_lt _ (by omega)]
      simp
    · simp only [hvlen]
      rw [List.getElem?_set_ne (by omega), hslot i hi]
      rcases Nat.lt_or_ge i xs.length with hlt | hge
      · rw [List.getElem?_append]
        simp [hlt, Nat.lt_succ_of_lt hlt]
      · have h1 : xs[i]? = none := List.getElem?_eq_none hge
        have h2 : (xs ++ [x])[i]? = none := by
          apply List.getElem?_eq_none; simp; omega
        simp [h1, h2]
        omega

theorem finv_push_full {v : FixSizedVec T N} {xs : List T}
    (h : FInv v xs) (hx : xs.length = N) (x : T) :
    v.push x = (FPushR.full, v) := by
  rw [FixSizedVec.push]
  simp [h.2.2.1, hx]

theorem finv_get {v : FixSizedVec T N} {xs : List T}
    (h : FInv v xs) (idx : Nat) : v.get idx = xs[idx]? := by
  obtain ⟨hlen, hle, hvlen, hslot⟩ := h
  rw [FixSizedVec.get]
  rcases Nat.lt_or_ge idx N with hlt | hge
  · rw [if_neg (by omega), hslot idx hlt]
    rcases Nat.lt_or_ge idx xs.length with h1 | h2
    · simp [h1]
    · simp [Nat.not_lt_of_ge h2, List.getElem?_eq_none h2]
  · rw [if_pos hge]
    exact (List.getElem?_eq_none (by omega)).symm

theorem finv_pushAll {v : FixSizedVec T N} {ys : List T} (h : FInv v ys)
    (xs : List T) : FInv (v.pushAll xs) ((ys ++ xs).take N) := by
  induction xs generalizing v ys with
  | nil =>
    simpa [FixSizedVec.pushAll, List.take_of_length_le h.2.1] using h
  | cons x xs ih =>
    have hstep : FixSizedVec.pushAll v (x :: xs) =
        FixSizedVec.pushAll (v.pushS x) xs := rfl
    rcases Nat.lt_or_ge ys.length N with hlt | hge
    · have hok := finv_push_lt h hlt x
      have := @ih (v.pushS x) (ys ++ [x]) hok.2
      rw [hstep]
      simpa [List.append_assoc] using this
    · have hfull : ys.length = N := Nat.le_antisymm h.2.1 hge
      have hv : v.pushS x = v := by
        rw [FixSizedVec.pushS, finv_push_full h hfull x]
      have := @ih (v.pushS x) ys (by rwa [hv])
      rw [hstep]
      have htake : ∀ zs : List T, ((ys ++ zs).take N) = ys := by
        intro zs
        rw [List.take_append_eq_append_take, hfull]
        simp [List.take_of_length_le (Nat.le_of_eq hfull)]
      rw [htake] at this ⊢
      exact this

theorem reach_finv {v : FixSizedVec T N} (h : FixSizedVec.Reach T N v) :
    ∃ xs : List T, FInv v xs := by
  induction h with
  | base => exact ⟨[], finv_new T N⟩
  | step v x hv ih =>
    obtain ⟨xs, hinv⟩ := ih
    rcases Nat.lt_or_ge xs.length N with hlt | hge
    · exact ⟨xs ++ [x], (finv_push_lt hinv hlt x).2⟩
    · have hfull : xs.length = N := Nat.le_antisymm hinv.2.1 hge
      refine ⟨xs, ?_⟩
      rw [finv_push_full hinv hfull x]
      exact hinv

/-! ## Linked-list variant: `LinkedListVec<T>` (src/linked_list.rs)

Raw pointers are modelled as `Option Nat`: `none` is the null pointer and
`some a` an address into an explicit heap, a list of allocated nodes in
allocation order (`Box::into_raw` returns the next fresh address, i.e. the
current heap length).  A node holds its `data` and its atomic `next`
pointer. -/

/-- A `Node<T>` of the linked list: one element plus the `next` pointer. -/
structure LNode (T : Type) where
  data : T
  next : Option Nat
deriving DecidableEq

/-- State of a `LinkedListVec<T>`: the allocation heap plus the `head`,
`tail` and `len` atomic fields. -/
structure LinkedListVec (T : Type) where
  heap : List (LNode T)
  head : Option Nat
  tail : Option Nat
  len : Nat
deriving DecidableEq

/-- `LinkedListVec::new()`: null `head` and `tail`, `len = 0`, nothing
allocated. -/
def LinkedListVec.new (T : Type) : LinkedListVec T :=
  { heap := [], head := none, tail := none, len := 0 }

/-- `LinkedListVec::push(val)`, sequential semantics.  A fresh node is
allocated at address `heap.length`, then:
* if the CAS of `tail` from null to the node succeeds (i.e. `tail` is null),
  `head` is also stored;
* otherwise the loop reloads `tail` as `snapshot`, asserts it non-null
  (`assert_ne!`), CASes `tail` to the new node (which succeeds sequentially)
  and stores the new address into the previous tail node's `next`;
finally `len` is incremented.  `none` is returned when the `assert_ne!`
would fire or when the previous-tail dereference would be undefined
behaviour; neither occurs in reachable states. -/
def LinkedListVec.push (v : LinkedListVec T) (val : T) :
    Option (LinkedListVec T) :=
  let addr := v.heap.length
  let heap1 := v.heap ++ [{ data := val, next := none }]
  match v.tail with
  | none =>
    some { heap := heap1, head := some addr, tail := some addr,
           len := v.len + 1 }
  | some _ =>
    match v.tail with
    | none => none
    | some t =>
      match heap1[t]? with
      | none => none
      | some nd =>
        some { heap := heap1.set t { data := nd.data, next := some addr },
               head := v.head, tail := some addr, len := v.len + 1 }

/-- Follow `next` pointers `steps` times starting from `p`, as the walk in
`LinkedListVec::get` does; `none` when a null or dangling pointer would be
dereferenced on the way. -/
def walkNext (heap : List (LNode T)) (p : Option Nat) : Nat → Option Nat
  | 0 => p
  | steps + 1 =>
    match p with
    | none => none
    | some a =>
      match heap[a]? with
      | none => none
      | some nd => walkNext heap nd.next steps

/-- `LinkedListVec::get(idx)`: `None` when `idx >= len`; otherwise walk
`idx` steps from `head` and read that node's `data`.  The walk and the final
dereference go through valid non-null pointers in every reachable state; the
`none` fallthroughs mark where the Rust code would have undefined
behaviour. -/
def LinkedListVec.get (v : LinkedListVec T) (idx : Nat) : Option T :=
  if idx ≥ v.len then
    none
  else
    match walkNext v.heap v.head idx with
    | none => none
    | some a =>
      match v.heap[a]? with
      | none => none
      | some nd => some nd.data

/-- `LinkedListVec::len()` loads the counter, i.e. returns the `len`
field. -/
def LinkedListVec.length (v : LinkedListVec T) : Nat :=
  v.len

/-- The walk of `impl Drop for LinkedListVec`, returning the addresses freed
by `Box::from_raw`, in order: free the current node, stop if it is `tail`
(pointer equality), else continue with its `next`.  The Rust loop has no
fuel; `heap.length` steps always suffice in reachable states because the
chain visits pairwise distinct allocated addresses. -/
def dropWalk (heap : List (LNode T)) (tl : Option Nat) :
    Nat → Option Nat → List Nat
  | 0, _ => []
  | _ + 1, none => []
  | fuel + 1, some a =>
    match heap[a]? with
    | none => [a]
    | some nd => a :: (if some a = tl then [] else dropWalk heap tl fuel nd.next)

/-- `drop(&mut self)` of `LinkedListVec`: if `head` is non-null, walk from it
freeing every node up to `tail` inclusive.  The result records the freed
addresses in order together with the values of the `head` and `tail` fields
when the destructor returns (the destructor never writes them). -/
def LinkedListVec.drop (v : LinkedListVec T) :
    List Nat × Option Nat × Option Nat :=
  (dropWalk v.heap v.tail v.heap.length v.head, v.head, v.tail)

/-- State after running `push` (identity in the unreachable failure case). -/
def LinkedListVec.pushS (v : LinkedListVec T) (val : T) : LinkedListVec T :=
  (v.push val).getD v

/-- State after pushing a whole list of values, one `push` call each. -/
def LinkedListVec.pushAll (v : LinkedListVec T) (xs : List T) :
    LinkedListVec T :=
  xs.foldl (fun v x => v.pushS x) v

/-- States of `LinkedListVec` reachable from `new` through the public
operations (`get` and `len` do not write). -/
inductive LinkedListVec.Reach (T : Type) : LinkedListVec T → Prop where
  | base : Reach T (LinkedListVec.new T)
  | step (v : LinkedListVec T) (x : T) :
      Reach T v → Reach T (v.pushS x)

/-- `Chain heap p addrs xs`: starting at pointer `p` the `next` links visit
exactly the addresses `addrs`, holding the data `xs`, ending in a null
pointer. -/
inductive Chain (heap : List (LNode T)) : Option Nat → List Nat → List T → Prop
  | nil : Chain heap none [] []
  | cons (a : Nat) (nd : LNode T) (as : List Nat) (xs : List T) :
      heap[a]? = some nd → Chain heap nd.next as xs →
      Chain heap (some a) (a :: as) (nd.data :: xs)

/-- Abstraction relation for the linked-list vector: state `v` holds exactly
the elements `xs`, laid out as a duplicate-free chain from `head` whose last
address is `tail`, with `len` equal to the element count. -/
def LInv (v : LinkedListVec T) (xs : List T) : Prop :=
  ∃ addrs : List Nat,
    Chain v.heap v.head addrs xs ∧ v.tail = addrs.getLast? ∧
      addrs.Nodup ∧ v.len = xs.length

theorem linv_new (T : Type) : LInv (LinkedListVec.new T) [] :=
  ⟨[], Chain.nil, rfl, List.nodup_nil, rfl⟩

theorem chain_length {heap : List (LNode T)} {p : Option Nat}
    {addrs : List Nat} {xs : List T} (h : Chain heap p addrs xs) :
    addrs.length = xs.length := by
  induction h with
  | nil => rfl
  | cons a nd as ys hHa hrest ih => simpa using ih

theorem chain_addr_lt {heap : List (LNode T)} {p : Option Nat}
    {addrs : List Nat} {xs : List T} (h : Chain heap p addrs xs) :
    ∀ a ∈ addrs, a < heap.length := by
  induction h with
  | nil => intro a ha; cases ha
  | cons a nd as ys hHa hrest ih =>
    intro b hb
    rcases List.mem_cons.mp hb with hba | hbm
    · subst hba
      exact (List.getElem?_eq_some.mp hHa).1
    · exact ih b hbm

theorem chain_nil_iff {heap : List (LNode T)} {p : Option Nat}
    {addrs : List Nat} {xs : List T} (h : Chain heap p addrs xs) :
    (p = none ↔ addrs = []) ∧ (addrs = [] ↔ xs = []) := by
  cases h with
  | nil => simp
  | cons a nd as ys hHa hrest => simp

theorem chain_ext {heap l : List (LNode T)} {p : Option Nat}
    {addrs : List Nat} {xs : List T} (h : Chain heap p addrs xs) :
    Chain (heap ++ l) p addrs xs := by
  induction h with
  | nil => exact Chain.nil
  | cons a nd as ys hHa hrest ih =>
    refine Chain.cons a nd as ys ?_ ih
    rw [List.getElem?_append, if_pos (List.getElem?_eq_some.mp hHa).1]
    exact hHa

theorem chain_none_of_nil {heap : List (LNode T)} {p : Option Nat}
    {xs : List T} (h : Chain heap p [] xs) : p = none ∧ xs = [] := by
  cases h
  exact ⟨rfl, rfl⟩

theorem chain_cons_head {heap : List (LNode T)} {p : Option Nat} {a : Nat}
    {as : List Nat} {xs : List T} (h : Chain heap p (a :: as) xs) :
    p = some a := by
  cases h
  rfl

theorem chain_last {heap : List (LNode T)} : ∀ {p : Option Nat}
    {addrs : List Nat} {xs : List T}, Chain heap p addrs xs →
    ∀ {t : Nat}, addrs.getLast? = some t →
    ∃ nd : LNode T, heap[t]? = some nd ∧ nd.next = none := by
  intro p addrs xs h
  induction h with
  | nil => intro t ht; cases ht
  | cons a nd as ys hHa hrest ih =>
    intro t ht
    match as, ys, hrest with
    | [], ys, hrest =>
      have hnext := (chain_none_of_nil hrest).1
      have hta : a = t := by simpa using ht
      subst hta
      exact ⟨nd, hHa, hnext⟩
    | b :: as2, ys, hrest =>
      rw [List.getLast?_cons_cons] at ht
      exact ih ht

theorem chain_walk {heap : List (LNode T)} : ∀ {p : Option Nat}
    {addrs : List Nat} {xs : List T}, Chain heap p addrs xs →
    ∀ i, i < addrs.length →
    ∃ (a : Nat) (nd : LNode T), walkNext heap p i = some a ∧
      addrs[i]? = some a ∧ heap[a]? = some nd ∧ xs[i]? = some nd.data := by
  intro p addrs xs h
  induction h with
  | nil => intro i hi; cases hi
  | cons a nd as ys hHa hrest ih =>
    intro i hi
    match i with
    | 0 => exact ⟨a, nd, rfl, by simp, hHa, by simp⟩
    | j + 1 =>
      have hj : j < as.length := by simpa using hi
      obtain ⟨b, nd2, hw, ha, hh, hx⟩ := ih j hj
      refine ⟨b, nd2, ?_, ?_, hh, ?_⟩
      · rw [walkNext]
        simp only [hHa]
        exact hw
      · simpa using ha
      · simpa using hx

theorem chain_snoc {H : List (LNode T)} {b : Nat} {val : T} :
    ∀ {p : Option Nat} {addrs : List Nat} {xs : List T},
    Chain H p addrs xs → addrs.Nodup → b ∉ addrs →
    H[b]? = some { data := val, next := none } →
    ∀ {t : Nat} {nd : LNode T}, addrs.getLast? = some t → H[t]? = some nd →
    Chain (H.set t { data := nd.data, next := some b }) p
      (addrs ++ [b]) (xs ++ [val]) := by
  intro p addrs xs hc
  induction hc with
  | nil =>
    intro _ _ _ t nd ht
    cases ht
  | cons a nd0 as ys hHa hrest ih =>
    intro hnodup hb hHb t nd ht hHt
    have hbne : b ≠ a := by
      intro hba
      exact hb (hba ▸ List.mem_cons_self a as)
    match as, ys, hrest, ih with
    | [], ys, hrest, ih =>
      obtain ⟨hnext, hys⟩ := chain_none_of_nil hrest
      subst hys
      have hta : a = t := by simpa using ht
      subst hta
      have hnd : nd0 = nd := by
        rw [hHa] at hHt
        exact Option.some_injective _ hHt
      subst hnd
      have halt : a < H.length := (List.getElem?_eq_some.mp hHa).1
      refine Chain.cons a { data := nd0.data, next := some b } [b] [val]
        ?_ ?_
      · exact List.getElem?_set_eq_of_lt _ halt
      · refine Chain.cons b { data := val, next := none } [] [] ?_ Chain.nil
        rw [List.getElem?_set_ne (fun h => hbne h.symm)]
        exact hHb
    | a2 :: as2, ys, hrest, ih =>
      have hne : a ≠ t := by
        intro hat
        subst hat
        have : a ∈ a2 :: as2 := by
          apply List.mem_of_mem_getLast?
          rw [List.getLast?_cons_cons] at ht
          exact ht
        exact (List.nodup_cons.mp hnodup).1 this
      have hchain2 := ih (List.nodup_cons.mp hnodup).2
        (fun hmem => hb (List.mem_cons_of_mem a hmem))
        hHb (by rw [List.getLast?_cons_cons] at ht; exact ht) hHt
      refine Chain.cons a nd0 ((a2 :: as2) ++ [b]) (ys ++ [val]) ?_ hchain2
      rw [List.getElem?_set_ne (Ne.symm hne)]
      exact hHa

theorem chain_dropWalk {H : List (LNode T)} : ∀ {p : Option Nat}
    {addrs : List Nat} {xs : List T}, Chain H p addrs xs → addrs.Nodup →
    ∀ fuel, addrs.length ≤ fuel →
    dropWalk H addrs.getLast? fuel p = addrs := by
  intro p addrs xs hc
  induction hc with
  | nil =>
    intro _ fuel _
    match fuel with
    | 0 => rfl
    | _ + 1 => rfl
  | cons a nd as ys hHa hrest ih =>
    intro hnodup fuel hfuel
    match fuel with
    | 0 => cases hfuel
    | f + 1 =>
      rw [dropWalk]
      simp only [hHa]
      match as, ys, hrest, ih with
      | [], ys, hrest, ih =>
        simp
      | a2 :: as2, ys, hrest, ih =>
        rw [List.getLast?_cons_cons]
        have hne : some a ≠ (a2 :: as2).getLast? := by
          intro heq
          have : a ∈ a2 :: as2 := List.mem_of_mem_getLast? heq.symm
          exact (List.nodup_cons.mp hnodup).1 this
        rw [if_neg hne]
        have := ih (List.nodup_cons.mp hnodup).2 f (by simpa using hfuel)
        rw [this]

theorem nodup_snoc {α : Type} {l : List α} {a : α} (h : l.Nodup)
    (ha : a ∉ l) : (l ++ [a]).Nodup := by
  simp [List.nodup_append, h, ha]

theorem getLast?_snoc {α : Type} (l : List α) (a : α) :
    (l ++ [a]).getLast? = some a := by
  simp

theorem linv_push {v : LinkedListVec T} {xs : List T} (h : LInv v xs)
    (val : T) :
    ∃ v' : LinkedListVec T, v.push val = some v' ∧ LInv v' (xs ++ [val]) ∧
      v'.len = v.len + 1 ∧ v'.tail = some v.heap.length ∧
      v'.head = (if v.tail = none then some v.heap.length else v.head) := by
  obtain ⟨addrs, hchain, htail, hnodup, hlen⟩ := h
  rcases addrs with _ | ⟨a0, as0⟩
  · obtain ⟨hhead, hxs⟩ := chain_none_of_nil hchain
    subst hxs
    have htl : v.tail = none := by simpa using htail
    have hpush : v.push val = some
        { heap := v.heap ++ [{ data := val, next := none }],
          head := some v.heap.length, tail := some v.heap.length,
          len := v.len + 1 } := by
      simp only [LinkedListVec.push, htl]
    refine ⟨_, hpush, ?_, rfl, rfl, by simp [htl]⟩
    refine ⟨[v.heap.length], ?_, by simp, by simp, by simpa using hlen⟩
    dsimp only
    refine Chain.cons v.heap.length { data := val, next := none } [] []
      ?_ Chain.nil
    simp
  · obtain ⟨t, ht⟩ : ∃ t, (a0 :: as0).getLast? = some t :=
      ⟨(a0 :: as0).getLast (List.cons_ne_nil a0 as0),
        List.getLast?_eq_getLast _ _⟩
    have htl : v.tail = some t := htail.trans ht
    obtain ⟨nd, hHt, hndnext⟩ := chain_last hchain ht
    have htlt : t < v.heap.length :=
      chain_addr_lt hchain t (List.mem_of_mem_getLast? ht)
    have hHt1 : (v.heap ++ [({ data := val, next := none } : LNode T)])[t]? =
        some nd := by
      rw [List.getElem?_append, if_pos htlt]
      exact hHt
    have hpush : v.push val = some
        { heap := (v.heap ++ [({ data := val, next := none } : LNode T)]).set t
            { data := nd.data, next := some v.heap.length },
          head := v.head, tail := some v.heap.length, len := v.len + 1 } := by
      simp only [LinkedListVec.push, htl, hHt1]
    have hmem : v.heap.length ∉ a0 :: as0 := by
      intro hmem
      exact absurd (chain_addr_lt hchain _ hmem) (by omega)
    refine ⟨_, hpush, ?_, rfl, rfl, by simp [htl]⟩
    refine ⟨(a0 :: as0) ++ [v.heap.length], ?_, ?_, ?_, ?_⟩
    · refine chain_snoc (chain_ext hchain) hnodup hmem ?_ ht hHt1
      simp
    · exact (getLast?_snoc (a0 :: as0) v.heap.length).symm
    · exact nodup_snoc hnodup hmem
    · simp [hlen]

theorem linv_get {v : LinkedListVec T} {xs : List T} (h : LInv v xs)
    (idx : Nat) : v.get idx = xs[idx]? := by
  obtain ⟨addrs, hchain, htail, hnodup, hlen⟩ := h
  rw [LinkedListVec.get]
  rcases Nat.lt_or_ge idx v.len with hlt | hge
  · rw [if_neg (by omega)]
    have hidx : idx < addrs.length := by
      rw [chain_length hchain]
      omega
    obtain ⟨a, nd, hw, ha, hh, hx⟩ := chain_walk hchain idx hidx
    rw [hw]
    simp [hh, hx]
  · rw [if_pos hge]
    exact (List.getElem?_eq_none (by omega)).symm

theorem linv_pushS {v : LinkedListVec T} {xs : List T} (h : LInv v xs)
    (val : T) : LInv (v.pushS val) (xs ++ [val]) := by
  obtain ⟨v', hpush, hinv, _⟩ := linv_push h val
  rw [LinkedListVec.pushS, hpush]
  exact hinv

theorem linv_pushAll {v : LinkedListVec T} {ys : List T} (h : LInv v ys)
    (xs : List T) : LInv (v.pushAll xs) (ys ++ xs) := by
  induction xs generalizing v ys with
  | nil => simpa using h
  | cons x xs ih =>
    have hstep : LinkedListVec.pushAll v (x :: xs) =
        LinkedListVec.pushAll (v.pushS x) xs := rfl
    rw [hstep]
    have := @ih (v.pushS x) (ys ++ [x]) (linv_pushS h x)
    simpa [List.append_assoc] using this

theorem lreach_linv {v : LinkedListVec T} (h : LinkedListVec.Reach T v) :
    ∃ xs : List T, LInv v xs := by
  induction h with
  | base => exact ⟨[], linv_new T⟩
  | step v x hv ih =>
    obtain ⟨xs, hinv⟩ := ih
    exact ⟨xs ++ [x], linv_pushS hinv x⟩

theorem linv_drop {v : LinkedListVec T} {xs : List T} (h : LInv v xs) :
    ∃ addrs : List Nat,
      Chain v.heap v.head addrs xs ∧ addrs.Nodup ∧
      addrs.length = xs.length ∧ v.tail = addrs.getLast? ∧
      (v.drop).1 = addrs ∧ (v.drop).2.1 = v.head ∧ (v.drop).2.2 = v.tail := by
  obtain ⟨addrs, hchain, htail, hnodup, hlen⟩ := h
  have hsub : addrs ⊆ List.range v.heap.length :=
    fun a ha => List.mem_range.mpr (chain_addr_lt hchain a ha)
  have hfuel : addrs.length ≤ v.heap.length := by
    simpa using (hnodup.subperm hsub).length_le
  refine ⟨addrs, hchain, hnodup, chain_length hchain, htail, ?_, rfl, rfl⟩
  show dropWalk v.heap v.tail v.heap.length v.head = addrs
  rw [htail]
  exact chain_dropWalk hchain hnodup v.heap.length hfuel

/-! ## The common operation interface and its observable behaviour

Both components expose `push`, `get` and `len`; running a sequence of these
operations yields a trace of observables, or `none` if an internal assertion
or undefined behaviour would be hit (which never happens from `new`). -/

/-- One call of the common interface. -/
inductive Op (T : Type) where
  | push (x : T)
  | get (idx : Nat)
  | len
deriving DecidableEq

/-- The observable outcome of one call: whether a `push` succeeded (for the
array variant, `Ok`/`Err(full)`; the list variant always succeeds), the
optional value a `get` returned, or the integer a `len` returned. -/
inductive Obs (T : Type) where
  | pushRes (ok : Bool)
  | got (r : Option T)
  | size (n : Nat)
deriving DecidableEq

/-- Run one operation against a `FixSizedVec` state. -/
def runFix (v : FixSizedVec T N) : Op T → Option (Obs T × FixSizedVec T N)
  | Op.push x =>
    match v.push x with
    | (FPushR.ok, v2) => some (Obs.pushRes true, v2)
    | (FPushR.full, v2) => some (Obs.pushRes false, v2)
    | (FPushR.undef, _) => none
    | (FPushR.assertFail, _) => none
  | Op.get idx => some (Obs.got (v.get idx), v)
  | Op.len => some (Obs.size v.len, v)

/-- Run one operation against a `LinkedListVec` state. -/
def runList (v : LinkedListVec T) : Op T → Option (Obs T × LinkedListVec T)
  | Op.push x =>
    match v.push x with
    | some v2 => some (Obs.pushRes true, v2)
    | none => none
  | Op.get idx => some (Obs.got (v.get idx), v)
  | Op.len => some (Obs.size v.len, v)

/-- Trace of observables of a whole operation sequence (array variant). -/
def traceFix (v : FixSizedVec T N) : List (Op T) → Option (List (Obs T))
  | [] => some []
  | op :: ops =>
    match runFix v op with
    | none => none
    | some (o, v2) =>
      match traceFix v2 ops with
      | none => none
      | some os => some (o :: os)

/-- Trace of observables of a whole operation sequence (list variant). -/
def traceList (v : LinkedListVec T) : List (Op T) → Option (List (Obs T))
  | [] => some []
  | op :: ops =>
    match runList v op with
    | none => none
    | some (o, v2) =>
      match traceList v2 ops with
      | none => none
      | some os => some (o :: os)

/-- Number of `push` calls in an operation sequence. -/
def countPushes : List (Op T) → Nat
  | [] => 0
  | Op.push _ :: ops => countPushes ops + 1
  | Op.get _ :: ops => countPushes ops
  | Op.len :: ops => countPushes ops

theorem sim_trace {fv : FixSizedVec T N} {lv : LinkedListVec T} {xs : List T}
    (hf : FInv fv xs) (hl : LInv lv xs) :
    ∀ ops : List (Op T), xs.length + countPushes ops ≤ N →
    ∃ os : List (Obs T), traceFix fv ops = some os ∧
      traceList lv ops = some os ∧ Obs.pushRes false ∉ os := by
  intro ops
  induction ops generalizing fv lv xs with
  | nil =>
    intro _
    exact ⟨[], rfl, rfl, by simp⟩
  | cons op ops ih =>
    intro hcount
    match op with
    | Op.push x =>
      have hx : xs.length < N := by
        rw [countPushes] at hcount
        omega
      have hok := finv_push_lt hf hx x
      have hfeq : fv.push x = (FPushR.ok, (fv.push x).2) := by
        rw [← hok.1]
      obtain ⟨lv2, hleq, hlinv, _⟩ := linv_push hl x
      obtain ⟨os, h1, h2, h3⟩ := ih hok.2 hlinv (by
        rw [countPushes] at hcount
        simp only [List.length_append, List.length_singleton]
        omega)
      refine ⟨Obs.pushRes true :: os, ?_, ?_, by simpa using h3⟩
      · rw [traceFix, runFix, hfeq]
        simp only [h1]
      · rw [traceList, runList, hleq]
        simp only [h2]
    | Op.get idx =>
      obtain ⟨os, h1, h2, h3⟩ := ih hf hl (by rwa [countPushes] at hcount)
      have hgets : fv.get idx = lv.get idx := by
        rw [finv_get hf idx, linv_get hl idx]
      refine ⟨Obs.got (fv.get idx) :: os, ?_, ?_, by simpa using h3⟩
      · rw [traceFix, runFix]
        simp only [h1]
      · rw [traceList, runList, ← hgets]
        simp only [h2]
    | Op.len =>
      obtain ⟨os, h1, h2, h3⟩ := ih hf hl (by rwa [countPushes] at hcount)
      have hlens : fv.len = lv.len := by
        obtain ⟨_, _, _, _, hlvlen⟩ := hl
        rw [hf.2.2.1, hlvlen]
      refine ⟨Obs.size fv.len :: os, ?_, ?_, by simpa using h3⟩
      · rw [traceFix, runFix]
        simp only [h1]
      · rw [traceList, runList, ← hlens]
        simp only [h2]

/-! ## The claims -/

/-- C1: for every state reached from an empty vector by a sequence of
pushes and every index `idx`, `get(idx)` returns the value supplied by the
`(idx+1)`-th push when `idx < len()` and returns absent when
`idx ≥ len()` — for the fixed-capacity variant (including indices
`len() ≤ idx < N`, absent via the unset published flag) and for the
linked-list variant. -/
theorem get_returns_pushed (T : Type) (N : Nat) (xs : List T) (idx : Nat) :
    ((idx < (FixSizedVec.pushAll (FixSizedVec.new T N) xs).len →
      (FixSizedVec.pushAll (FixSizedVec.new T N) xs).get idx = xs[idx]?) ∧
     ((FixSizedVec.pushAll (FixSizedVec.new T N) xs).len ≤ idx →
      (FixSizedVec.pushAll (FixSizedVec.new T N) xs).get idx = none)) ∧
    ((idx < (LinkedListVec.pushAll (LinkedListVec.new T) xs).len →
      (LinkedListVec.pushAll (LinkedListVec.new T) xs).get idx = xs[idx]?) ∧
     ((LinkedListVec.pushAll (LinkedListVec.new T) xs).len ≤ idx →
      (LinkedListVec.pushAll (LinkedListVec.new T) xs).get idx = none)) := by
  have hf := finv_pushAll (finv_new T N) xs
  simp only [List.nil_append] at hf
  have hl := linv_pushAll (linv_new T) xs
  simp only [List.nil_append] at hl
  have hflen : (FixSizedVec.pushAll (FixSizedVec.new T N) xs).len =
      (xs.take N).length := hf.2.2.1
  have hllen : (LinkedListVec.pushAll (LinkedListVec.new T) xs).len =
      xs.length := by
    obtain ⟨_, _, _, _, hlen⟩ := hl
    exact hlen
  refine ⟨⟨?_, ?_⟩, ⟨?_, ?_⟩⟩
  · intro hlt
    rw [finv_get hf idx]
    rw [hflen, List.length_take] at hlt
    rw [List.getElem?_take, if_pos (by omega)]
  · intro hge
    rw [finv_get hf idx]
    rw [hflen] at hge
    exact List.getElem?_eq_none hge
  · intro _
    exact linv_get hl idx
  · intro hge
    rw [linv_get hl idx]
    rw [hllen] at hge
    exact List.getElem?_eq_none hge

theorem get_returns_pushed_witness :
    (1 < (FixSizedVec.pushAll (FixSizedVec.new Nat 3) [4, 5]).len ∧
      (FixSizedVec.pushAll (FixSizedVec.new Nat 3) [4, 5]).get 1 =
        [4, 5][1]?) ∧
    (1 < (LinkedListVec.pushAll (LinkedListVec.new Nat) [4, 5]).len ∧
      (LinkedListVec.pushAll (LinkedListVec.new Nat) [4, 5]).get 1 =
        [4, 5][1]?) :=
  ⟨⟨by decide, (get_returns_pushed Nat 3 [4, 5] 1).1.1 (by decide)⟩,
   ⟨by decide, (get_returns_pushed Nat 3 [4, 5] 1).2.1 (by decide)⟩⟩

/-- C2: the two components are drop-in equivalent — any operation sequence
with at most `N` pushes, run from `new` against both variants, produces the
identical trace of observables, every push succeeds in both (no
`pushRes false` in the trace), and neither run hits an internal failure. -/
theorem drop_in_equivalence (T : Type) (N : Nat) (ops : List (Op T))
    (hcount : countPushes ops ≤ N) :
    ∃ os : List (Obs T),
      traceFix (FixSizedVec.new T N) ops = some os ∧
      traceList (LinkedListVec.new T) ops = some os ∧
      Obs.pushRes false ∉ os :=
  sim_trace (finv_new T N) (linv_new T) ops (by simpa using hcount)

theorem drop_in_equivalence_witness :
    countPushes ([Op.push 5, Op.len, Op.get 0, Op.get 3, Op.push 7,
      Op.get 1] : List (Op Nat)) ≤ 2 ∧
    ∃ os : List (Obs Nat),
      traceFix (FixSizedVec.new Nat 2) [Op.push 5, Op.len, Op.get 0,
        Op.get 3, Op.push 7, Op.get 1] = some os ∧
      traceList (LinkedListVec.new Nat) [Op.push 5, Op.len, Op.get 0,
        Op.get 3, Op.push 7, Op.get 1] = some os ∧
      Obs.pushRes false ∉ os :=
  ⟨by decide, drop_in_equivalence Nat 2 [Op.push 5, Op.len, Op.get 0,
    Op.get 3, Op.push 7, Op.get 1] (by decide)⟩

/-- C3: for the fixed-capacity variant in a reachable state, `push` returns
full exactly when the reservation counter equals `N`; otherwise it wins
index `i = v.len` (the pre-increment counter value), writes the value into
slot `i` with its published flag set to true, and the counter afterwards
equals `i + 1`. -/
theorem push_full_iff_counter {T : Type} {N : Nat} {v : FixSizedVec T N}
    (h : FixSizedVec.Reach T N v) (x : T) :
    ((v.push x).1 = FPushR.full ↔ v.len = N) ∧
    (v.len ≠ N →
      (v.push x).1 = FPushR.ok ∧
      (v.push x).2.array = v.array.set v.len (some x, true) ∧
      (v.push x).2.len = v.len + 1) := by
  obtain ⟨xs, hinv⟩ := reach_finv h
  have hvlen := hinv.2.2.1
  have hle := hinv.2.1
  by_cases hN : v.len = N
  · have hfull := finv_push_full hinv (by omega) x
    refine ⟨⟨fun _ => hN, fun _ => ?_⟩, fun hne => absurd hN hne⟩
    rw [hfull]
  · have hlt : xs.length < N := by omega
    have hl : v.array[v.len]? = some (none, false) := by
      rw [hvlen, hinv.2.2.2 xs.length hlt]
      simp
    rw [push_eq_ok (by omega) hl x]
    refine ⟨⟨fun hfull => ?_, fun hN2 => absurd hN2 hN⟩,
      fun _ => ⟨rfl, rfl, rfl⟩⟩
    exact absurd hfull (by simp)

theorem push_full_iff_counter_witness :
    ((FixSizedVec.new Nat 2).len ≠ 2) ∧
    (((FixSizedVec.new Nat 2).push 9).1 = FPushR.ok ∧
     ((FixSizedVec.new Nat 2).push 9).2.array =
       (FixSizedVec.new Nat 2).array.set (FixSizedVec.new Nat 2).len
         (some 9, true) ∧
     ((FixSizedVec.new Nat 2).push 9).2.len =
       (FixSizedVec.new Nat 2).len + 1) :=
  ⟨by decide,
   (push_full_iff_counter FixSizedVec.Reach.base 9).2 (by decide)⟩

/-- C4: for the fixed-capacity variant, a `push` on a full vector
(`len() = N`) returns full and leaves the state completely unchanged —
every slot and the length are the same after the call. -/
theorem push_full_state_unchanged {T : Type} {N : Nat}
    (v : FixSizedVec T N) (x : T) (h : v.len = N) :
    (v.push x).1 = FPushR.full ∧ (v.push x).2 = v ∧
    (∀ i : Nat, (v.push x).2.array[i]? = v.array[i]?) ∧
    (v.push x).2.len = v.len := by
  have heq : v.push x = (FPushR.full, v) := by
    rw [FixSizedVec.push]
    simp [h]
  rw [heq]
  exact ⟨rfl, rfl, fun i => rfl, rfl⟩

theorem push_full_state_unchanged_witness :
    (FixSizedVec.new Nat 0).len = 0 ∧
    (((FixSizedVec.new Nat 0).push 5).1 = FPushR.full ∧
     ((FixSizedVec.new Nat 0).push 5).2 = FixSizedVec.new Nat 0 ∧
     (∀ i : Nat, ((FixSizedVec.new Nat 0).push 5).2.array[i]? =
       (FixSizedVec.new Nat 0).array[i]?) ∧
     ((FixSizedVec.new Nat 0).push 5).2.len =
       (FixSizedVec.new Nat 0).len) :=
  ⟨rfl, push_full_state_unchanged (FixSizedVec.new Nat 0) 5 rfl⟩

/-- The one-element linked-list vector obtained by pushing `7` into a fresh
vector; its destructor exhibits the behaviour checked below. -/
def oneElemList : LinkedListVec Nat := (LinkedListVec.new Nat).pushS 7

/-- C5 counterexample: destroying a one-element vector reclaims node `0`
(the only node) but leaves the `head` and `tail` fields equal to `some 0` —
the destructor never stores null into them, contradicting the claim that it
"resets head and tail to null". -/
theorem drop_reset_counterexample :
    (oneElemList.drop).1 = [0] ∧
    (oneElemList.drop).2.1 = some 0 ∧ (oneElemList.drop).2.2 = some 0 ∧
    ¬((oneElemList.drop).2.1 = none ∧ (oneElemList.drop).2.2 = none) := by
  decide

/-- C5 (amended): destruction of a reachable vector holding `k ≥ 1` elements
walks from head to tail inclusive and reclaims each of the `k` nodes exactly
once (no leak, no double free), in link order; the `head` and `tail` fields
are left unchanged (they are not reset to null — the whole structure is
deallocated right afterwards, so the stale values are never observable). -/
theorem drop_frees_chain_once {T : Type} {v : LinkedListVec T}
    (h : LinkedListVec.Reach T v) (hk : 1 ≤ v.len) :
    ∃ (addrs : List Nat) (xs : List T),
      Chain v.heap v.head addrs xs ∧ addrs.length = v.len ∧
      v.tail = addrs.getLast? ∧ addrs.Nodup ∧
      (v.drop).1 = addrs ∧
      (v.drop).2.1 = v.head ∧ (v.drop).2.2 = v.tail ∧
      (v.drop).2.1 ≠ none := by
  obtain ⟨xs, hinv⟩ := lreach_linv h
  have hvlen : v.len = xs.length := by
    obtain ⟨_, _, _, _, hl⟩ := hinv
    exact hl
  obtain ⟨addrs, hchain, hnodup, hlen, htail, hfree, hh, ht⟩ := linv_drop hinv
  refine ⟨addrs, xs, hchain, by omega, htail, hnodup, hfree, hh, ht, ?_⟩
  rw [hh]
  rcases addrs with _ | ⟨a0, as0⟩
  · exfalso
    have := chain_length hchain
    simp at this
    omega
  · rw [chain_cons_head hchain]
    simp

theorem drop_frees_chain_once_witness :
    1 ≤ oneElemList.len ∧
    ∃ (addrs : List Nat) (xs : List Nat),
      Chain oneElemList.heap oneElemList.head addrs xs ∧
      addrs.length = oneElemList.len ∧
      oneElemList.tail = addrs.getLast? ∧ addrs.Nodup ∧
      (oneElemList.drop).1 = addrs ∧
      (oneElemList.drop).2.1 = oneElemList.head ∧
      (oneElemList.drop).2.2 = oneElemList.tail ∧
      (oneElemList.drop).2.1 ≠ none :=
  ⟨by decide,
   drop_frees_chain_once
     (LinkedListVec.Reach.step (LinkedListVec.new Nat) 7
       LinkedListVec.Reach.base)
     (by decide)⟩

/-- C6: for the linked-list variant in a reachable state, `push` never
fails — it appends the value as the new last element (the new node becomes
`tail` and, when the vector was empty, also `head`), increments the count by
exactly one, and leaves all previously readable elements unchanged. -/
theorem list_push_always_succeeds {T : Type} {v : LinkedListVec T}
    (h : LinkedListVec.Reach T v) (x : T) :
    ∃ v2 : LinkedListVec T, v.push x = some v2 ∧
      v2.len = v.len + 1 ∧ v2.tail = some v.heap.length ∧
      (v.len = 0 → v2.head = some v.heap.length) ∧
      (v.len ≠ 0 → v2.head = v.head) ∧
      v2.get v.len = some x ∧
      ∀ i : Nat, i < v.len → v2.get i = v.get i := by
  obtain ⟨xs, hinv⟩ := lreach_linv h
  have hvlen : v.len = xs.length := by
    obtain ⟨_, _, _, _, hl⟩ := hinv
    exact hl
  have htail_iff : v.tail = none ↔ v.len = 0 := by
    obtain ⟨addrs, hchain, htl, hnodup, hl⟩ := hinv
    have hcl := chain_length hchain
    rw [htl, List.getLast?_eq_none_iff, hl, ← hcl]
    simp [List.length_eq_zero]
  obtain ⟨v2, hpush, hinv2, hlen, htail, hhead⟩ := linv_push hinv x
  refine ⟨v2, hpush, hlen, htail, ?_, ?_, ?_, ?_⟩
  · intro h0
    rw [hhead, if_pos (htail_iff.mpr h0)]
  · intro h0
    rw [hhead, if_neg (fun hc => h0 (htail_iff.mp hc))]
  · rw [linv_get hinv2, hvlen]
    simp
  · intro i hi
    rw [linv_get hinv2, linv_get hinv i, List.getElem?_append,
      if_pos (by omega)]

theorem list_push_always_succeeds_witness :
    ∃ v2 : LinkedListVec Nat, (LinkedListVec.new Nat).push 4 = some v2 ∧
      v2.len = (LinkedListVec.new Nat).len + 1 ∧
      v2.tail = some (LinkedListVec.new Nat).heap.length ∧
      ((LinkedListVec.new Nat).len = 0 →
        v2.head = some (LinkedListVec.new Nat).heap.length) ∧
      ((LinkedListVec.new Nat).len ≠ 0 →
        v2.head = (LinkedListVec.new Nat).head) ∧
      v2.get (LinkedListVec.new Nat).len = some 4 ∧
      ∀ i : Nat, i < (LinkedListVec.new Nat).len →
        v2.get i = (LinkedListVec.new Nat).get i :=
  list_push_always_succeeds LinkedListVec.Reach.base 4

/-- C7: for the fixed-capacity variant in every reachable state the
reservation counter satisfies `0 ≤ len ≤ N` (the lower bound holds by type),
and no public operation run from that state ever decreases it — the counter
of the post state of any `push`, `get` or `len` call is at least the old one
and still at most `N`. -/
theorem len_monotone_bounded {T : Type} {N : Nat} {v : FixSizedVec T N}
    (h : FixSizedVec.Reach T N v) :
    v.len ≤ N ∧
    ∀ (op : Op T) (o : Obs T) (v2 : FixSizedVec T N),
      runFix v op = some (o, v2) → v.len ≤ v2.len ∧ v2.len ≤ N := by
  obtain ⟨xs, hinv⟩ := reach_finv h
  have hvlen := hinv.2.2.1
  have hle := hinv.2.1
  refine ⟨by omega, ?_⟩
  intro op o v2 hrun
  match op with
  | Op.push x =>
    by_cases hN : xs.length < N
    · have hl : v.array[v.len]? = some (none, false) := by
        rw [hvlen, hinv.2.2.2 xs.length hN]
        simp
      rw [runFix, push_eq_ok (by omega) hl x] at hrun
      simp only [Option.some.injEq, Prod.mk.injEq] at hrun
      rw [← hrun.2]
      refine ⟨?_, ?_⟩
      · dsimp only
        omega
      · dsimp only
        omega
    · have hfull : xs.length = N := by omega
      rw [runFix, finv_push_full hinv hfull x] at hrun
      simp only [Option.some.injEq, Prod.mk.injEq] at hrun
      rw [← hrun.2]
      omega
  | Op.get idx =>
    rw [runFix] at hrun
    simp only [Option.some.injEq, Prod.mk.injEq] at hrun
    rw [← hrun.2]
    omega
  | Op.len =>
    rw [runFix] at hrun
    simp only [Option.some.injEq, Prod.mk.injEq] at hrun
    rw [← hrun.2]
    omega

theorem len_monotone_bounded_witness :
    (FixSizedVec.new Nat 2).len ≤ 2 ∧
    (FixSizedVec.new Nat 2).len ≤ ((FixSizedVec.new Nat 2).push 3).2.len ∧
    ((FixSizedVec.new Nat 2).push 3).2.len ≤ 2 :=
  ⟨(len_monotone_bounded FixSizedVec.Reach.base).1,
   ((len_monotone_bounded FixSizedVec.Reach.base).2 (Op.push 3)
     (Obs.pushRes true) ((FixSizedVec.new Nat 2).push 3).2 (by decide)).1,
   ((len_monotone_bounded FixSizedVec.Reach.base).2 (Op.push 3)
     (Obs.pushRes true) ((FixSizedVec.new Nat 2).push 3).2 (by decide)).2⟩

/-- C8: read idempotence for both variants — a `get(idx)` call does not
modify the state, so calling it twice with no intervening push returns the
same result both times (absent both times or the same value both times). -/
theorem get_idempotent {T : Type} {N : Nat} (fv : FixSizedVec T N)
    (lv : LinkedListVec T) (idx : Nat) :
    (∀ (o : Obs T) (v2 : FixSizedVec T N),
       runFix fv (Op.get idx) = some (o, v2) →
       v2 = fv ∧ o = Obs.got (fv.get idx) ∧
       runFix v2 (Op.get idx) = some (o, v2)) ∧
    (∀ (o : Obs T) (w2 : LinkedListVec T),
       runList lv (Op.get idx) = some (o, w2) →
       w2 = lv ∧ o = Obs.got (lv.get idx) ∧
       runList w2 (Op.get idx) = some (o, w2)) := by
  constructor
  · intro o v2 hrun
    rw [runFix] at hrun
    simp only [Option.some.injEq, Prod.mk.injEq] at hrun
    obtain ⟨ho, hv⟩ := hrun
    subst ho
    subst hv
    exact ⟨rfl, rfl, rfl⟩
  · intro o w2 hrun
    rw [runList] at hrun
    simp only [Option.some.injEq, Prod.mk.injEq] at hrun
    obtain ⟨ho, hv⟩ := hrun
    subst ho
    subst hv
    exact ⟨rfl, rfl, rfl⟩

theorem get_idempotent_witness :
    runFix (FixSizedVec.new Nat 2) (Op.get 0) =
      some (Obs.got ((FixSizedVec.new Nat 2).get 0),
        FixSizedVec.new Nat 2) ∧
    runList (LinkedListVec.new Nat) (Op.get 0) =
      some (Obs.got ((LinkedListVec.new Nat).get 0),
        LinkedListVec.new Nat) :=
  ⟨((get_idempotent (FixSizedVec.new Nat 2) (LinkedListVec.new Nat) 0).1
      (Obs.got ((FixSizedVec.new Nat 2).get 0))
      (FixSizedVec.new Nat 2) rfl).2.2,
   ((get_idempotent (FixSizedVec.new Nat 2) (LinkedListVec.new Nat) 0).2
      (Obs.got ((LinkedListVec.new Nat).get 0))
      (LinkedListVec.new Nat) rfl).2.2⟩

/-- C9: for the fixed-capacity variant in every reachable state, slot `i`
has its published flag true exactly when `i < len`, every published slot is
initialised (so the unsafe read in `get` never sees an uninitialised slot
with a true flag), and the internal assertion in `push` (the reserved slot's
flag is still false) never fails. -/
theorem published_iff_below_len {T : Type} {N : Nat} {v : FixSizedVec T N}
    (h : FixSizedVec.Reach T N v) :
    (∀ (i : Nat) (slot : Option T × Bool), v.array[i]? = some slot →
       (slot.2 = true ↔ i < v.len) ∧
       (slot.2 = true → slot.1.isSome = true)) ∧
    ∀ x : T, (v.push x).1 ≠ FPushR.assertFail := by
  obtain ⟨xs, hinv⟩ := reach_finv h
  obtain ⟨hlen, hle, hvlen, hslot⟩ := hinv
  constructor
  · intro i slot hs
    have hiN : i < N := by
      have := (List.getElem?_eq_some.mp hs).1
      omega
    rw [hslot i hiN] at hs
    injection hs with hs
    subst hs
    constructor
    · simp [hvlen]
    · intro hflag
      simp only [decide_eq_true_eq] at hflag
      rw [List.getElem?_eq_getElem hflag]
      rfl
  · intro x
    by_cases hN : xs.length = N
    · rw [finv_push_full ⟨hlen, hle, hvlen, hslot⟩ hN x]
      simp
    · have hlt : xs.length < N := by omega
      have hl : v.array[v.len]? = some (none, false) := by
        rw [hvlen, hslot xs.length hlt]
        simp
      rw [push_eq_ok (by omega) hl x]
      simp

theorem published_iff_below_len_witness :
    (((FixSizedVec.new Nat 2).push 5).2.array[0]? = some (some 5, true)) ∧
    ((some 5, true).2 = true ↔ 0 < ((FixSizedVec.new Nat 2).push 5).2.len) ∧
    ((((FixSizedVec.new Nat 2).push 5).2.push 7).1 ≠ FPushR.assertFail) :=
  ⟨by decide,
   ((published_iff_below_len
       (FixSizedVec.Reach.step (FixSizedVec.new Nat 2) 5
         FixSizedVec.Reach.base)).1 0 (some 5, true) (by decide)).1,
   (published_iff_below_len
       (FixSizedVec.Reach.step (FixSizedVec.new Nat 2) 5
         FixSizedVec.Reach.base)).2 7⟩

/-- C10: for the linked-list variant every reachable state satisfies the
chain invariant — `head` and `tail` are null exactly when `len = 0`, and the
`next` chain from `head` consists of exactly `len` nodes ending at `tail`
whose `next` is null; consequently the `idx`-step walk in `get` with
`idx < len` dereferences only valid non-null pointers, and the
`assert_ne!` in `push` never fails (`push` always returns a state). -/
theorem list_chain_invariant {T : Type} {v : LinkedListVec T}
    (h : LinkedListVec.Reach T v) :
    ((v.head = none ↔ v.len = 0) ∧ (v.tail = none ↔ v.len = 0)) ∧
    (∃ (addrs : List Nat) (xs : List T),
        Chain v.heap v.head addrs xs ∧ addrs.length = v.len ∧
        v.tail = addrs.getLast? ∧
        ∀ t : Nat, v.tail = some t →
          ∃ nd : LNode T, v.heap[t]? = some nd ∧ nd.next = none) ∧
    (∀ idx : Nat, idx < v.len →
      ∃ (a : Nat) (nd : LNode T), walkNext v.heap v.head idx = some a ∧
        v.heap[a]? = some nd) ∧
    ∀ x : T, (v.push x).isSome = true := by
  obtain ⟨xs, hinv⟩ := lreach_linv h
  obtain ⟨addrs, hchain, htail, hnodup, hlen⟩ := hinv
  have hcl : addrs.length = xs.length := chain_length hchain
  refine ⟨⟨?_, ?_⟩, ?_, ?_, ?_⟩
  · rcases haddrs : addrs with _ | ⟨a0, as0⟩
    · subst haddrs
      obtain ⟨hh, hx⟩ := chain_none_of_nil hchain
      simp [hh, hlen, hx]
    · subst haddrs
      rw [chain_cons_head hchain]
      have : xs.length ≠ 0 := by
        rw [← hcl]
        simp
      simp [hlen, this]
  · rcases haddrs : addrs with _ | ⟨a0, as0⟩
    · subst haddrs
      obtain ⟨hh, hx⟩ := chain_none_of_nil hchain
      simp [htail, hlen, hx]
    · subst haddrs
      rw [htail]
      have hne : (a0 :: as0) ≠ [] := List.cons_ne_nil a0 as0
      obtain ⟨t, ht⟩ : ∃ t, (a0 :: as0).getLast? = some t :=
        ⟨(a0 :: as0).getLast hne, List.getLast?_eq_getLast _ _⟩
      have : xs.length ≠ 0 := by
        rw [← hcl]
        simp
      simp [ht, hlen, this]
  · refine ⟨addrs, xs, hchain, by omega, htail, ?_⟩
    intro t ht
    exact chain_last hchain (htail.symm.trans ht)
  · intro idx hidx
    obtain ⟨a, nd, hw, _, hh, _⟩ := chain_walk hchain idx (by omega)
    exact ⟨a, nd, hw, hh⟩
  · intro x
    obtain ⟨v2, hpush, _⟩ :=
      linv_push ⟨addrs, hchain, htail, hnodup, hlen⟩ x
    rw [hpush]
    rfl

theorem list_chain_invariant_witness :
    (((LinkedListVec.new Nat).pushS 3).head = none ↔
      ((LinkedListVec.new Nat).pushS 3).len = 0) ∧
    ∀ x : Nat, ((((LinkedListVec.new Nat).pushS 3).push x)).isSome = true :=
  ⟨(list_chain_invariant
      (LinkedListVec.Reach.step (LinkedListVec.new Nat) 3
        LinkedListVec.Reach.base)).1.1,
   (list_chain_invariant
      (LinkedListVec.Reach.step (LinkedListVec.new Nat) 3
        LinkedListVec.Reach.base)).2.2.2⟩
